import Mathlib

/-!
Verification of the crossword constraint-satisfaction engine.

The repository contains two evolutionary variants of the same engine:
  * `src/CrosswordCreator.ts` — the AC-3 variant: pre-search arc consistency
    (`ac3`/`revise`) followed by plain backtracking.
  * `src/unnamed/part_000` — the forward-checking variant: no pre-pruning,
    `forwardCheck` after each assignment, per-length shared domain sets.
Both share `src/Crossword.ts` (grid model, word loading) and the same
`consistent`, `orderDomainValues` shape.

Words are modelled as `List Char` (a JavaScript string); `value[i]` on a
string yields the character, or `undefined` when out of range, and
`undefined === undefined` holds, so letter access is `Option Char` compared
with `=`.  JavaScript `Map`/`Set` are modelled as association lists / lists
without duplicates, preserving insertion order; `Array.prototype.sort` is
required by ECMAScript 2019 to be a stable comparator sort, modelled here by
a stable insertion sort (`sortBy`).
-/

/-- Direction of a slot, `CrosswordVariable.ACROSS` / `DOWN` in the source. -/
inductive Dir where
  | across
  | down
deriving DecidableEq, Repr

/-- `CrosswordVariable` from `src/Crossword.ts`: start cell, direction and
length.  The source identifies variables by the id string
`i-j-direction-length`, which is injective in these four fields, so
structural equality coincides with id equality. -/
structure CrosswordVariable where
  i : Nat
  j : Nat
  dir : Dir
  length : Nat
deriving DecidableEq, Repr

instance : Inhabited CrosswordVariable := ⟨⟨0, 0, Dir.across, 0⟩⟩

/-- The ordered cell list of a variable (the constructor loop of
`CrosswordVariable`). -/
def cellsOf (v : CrosswordVariable) : List (Nat × Nat) :=
  (List.range v.length).map fun k =>
    (v.i + (if v.dir = Dir.down then k else 0),
     v.j + (if v.dir = Dir.across then k else 0))

/-- A word: a JavaScript string as a list of characters. -/
abbrev Word := List Char

/-- JavaScript `value[i]`: the character at index `i`, `undefined`
(`none`) when out of range. -/
def charAt (w : Word) (n : Nat) : Option Char := w.get? n

/-- Stable insertion of `x` into a list sorted by `le` (helper for
`sortBy`). -/
def insertLe (le : α → α → Bool) (x : α) : List α → List α
  | [] => [x]
  | y :: ys => if le x y then x :: y :: ys else y :: insertLe le x ys

/-- Stable comparator sort, the model of `Array.prototype.sort` (ECMAScript
2019 requires sort to be stable; the exact algorithm is
implementation-defined, so any stable sort is a faithful model). -/
def sortBy (le : α → α → Bool) : List α → List α
  | [] => []
  | x :: xs => insertLe le x (sortBy le xs)

/-- The crossword model consumed by the solver: the variable set (a JS `Set`
iterated in insertion order, hence a list) and the overlap relation
(`Crossword.overlaps`; `none` covers both a stored `null` and an absent
key, which JavaScript `if` treats alike). -/
structure CW where
  vars : List CrosswordVariable
  overlaps : CrosswordVariable → CrosswordVariable → Option (Nat × Nat)

/-- `Crossword.neighbors`: the variables distinct from `v` whose overlap
entry with `v` is non-null. -/
def neighbors (cw : CW) (v : CrosswordVariable) : List CrosswordVariable :=
  cw.vars.filter fun u => decide (u ≠ v) && (cw.overlaps v u).isSome

/-- A partial assignment, a JS `Map` from variable to word.  `Map.set` on a
fresh key is modelled by consing; no operation of the engine observes the
iteration order of the assignment. -/
abbrev Assignment := List (CrosswordVariable × Word)

/-- `Map.get` on the assignment. -/
def alookup : Assignment → CrosswordVariable → Option Word
  | [], _ => none
  | (u, w) :: rest, v => if u = v then some w else alookup rest v

/-- `CrosswordCreator.assignmentComplete`. -/
def assignmentComplete (cw : CW) (a : Assignment) : Bool :=
  a.length == cw.vars.length

/-- `CrosswordCreator.consistent`, identical in both variants.  The JS code
reads `assignment.get(variable.id)!`; at every call site the binding was
just set, so the `none` branch is unreachable (returning `false` there is a
modelling choice for totality).  `if (neighborValue)` is JS truthiness:
`undefined` and the empty string are both skipped. -/
def consistentB (cw : CW) (v : CrosswordVariable) (a : Assignment) : Bool :=
  match alookup a v with
  | none => false
  | some w =>
    (w.length == v.length) &&
    !(a.any fun p => decide (p.1 ≠ v) && decide (p.2 = w)) &&
    ((neighbors cw v).all fun n =>
      match alookup a n with
      | none => true
      | some nw =>
        if nw = [] then true
        else
          match cw.overlaps v n with
          | none => true
          | some (i, j) => decide (charAt w i = charAt nw j))

/-- `CrosswordCreator.orderDomainValues` (AC-3 variant): least-constraining
value — sort ascending by the number of values the candidate would rule out
of unassigned neighbors' domains. -/
def orderDomainValues (cw : CW) (doms : CrosswordVariable → List Word)
    (a : Assignment) (v : CrosswordVariable) (vals : List Word) : List Word :=
  let unassignedNeighbors := (neighbors cw v).filter fun n => (alookup a n).isNone
  let constraintCount := fun (w : Word) =>
    unassignedNeighbors.foldl (fun acc n =>
      match cw.overlaps v n with
      | some (i, j) =>
        acc + ((doms n).length -
          ((doms n).filter fun nw => decide (charAt w i = charAt nw j)).length)
      | none => acc) 0
  sortBy (fun w1 w2 => constraintCount w1 ≤ constraintCount w2) vals

/-- The unassigned variables, in `crossword.variables` insertion order. -/
def unassignedF (cw : CW) (a : Assignment) : List CrosswordVariable :=
  cw.vars.filter fun v => (alookup a v).isNone

/-- Degree used by the AC-3 variant tie-break: the number of *unassigned*
neighbors (`CrosswordCreator.ts` lines 266-267). -/
def degreeF (cw : CW) (a : Assignment) (v : CrosswordVariable) : Nat :=
  ((neighbors cw v).filter fun n => (alookup a n).isNone).length

/-- The MRV comparator of the AC-3 variant: ascending domain size, ties by
descending count of unassigned neighbors. -/
def leSel (cw : CW) (doms : CrosswordVariable → List Word) (a : Assignment)
    (x y : CrosswordVariable) : Bool :=
  decide ((doms x).length < (doms y).length ∨
    ((doms x).length = (doms y).length ∧ degreeF cw a y ≤ degreeF cw a x))

/-- `CrosswordCreator.selectUnassignedVariable` (AC-3 variant).  The source
returns `unassignedVariables[0]`; `backtrack` only calls it on an incomplete
assignment, so the list is never empty (`headI` defaults on the unreachable
empty case). -/
def selectUnassignedVariable (cw : CW) (doms : CrosswordVariable → List Word)
    (a : Assignment) : CrosswordVariable :=
  (sortBy (leSel cw doms a) (unassignedF cw a)).headI

/-- One entry of the diagnostic `this.steps` log: the source pushes the
formatted strings "Trying to assign…", "Assigned…", "Backtracking…",
"Failed to assign… (inconsistent)"; the model keeps them as structured
events carrying the same data. -/
inductive Step where
  | trying (v : CrosswordVariable) (w : Word)
  | assigned (v : CrosswordVariable) (w : Word)
  | backtracking (v : CrosswordVariable) (w : Word)
  | failedAssign (v : CrosswordVariable) (w : Word)
deriving DecidableEq, Repr

/-- The value loop inside `CrosswordCreator.backtrack` (AC-3 variant).
`bt` is the recursive call one level deeper; outside the loop the source
does `assignment.set`, `assignment.delete`, which the model renders by
passing the extended/original assignment. -/
def tryValues (cw : CW)
    (bt : Assignment → List Step → Option Assignment × List Step)
    (v : CrosswordVariable) :
    List Word → Assignment → List Step → Option Assignment × List Step
  | [], _, st => (none, st)
  | w :: rest, a, st =>
    if consistentB cw v ((v, w) :: a) then
      match bt ((v, w) :: a) (st ++ [Step.trying v w, Step.assigned v w]) with
      | (some r, st2) => (some r, st2)
      | (none, st2) => tryValues cw bt v rest a (st2 ++ [Step.backtracking v w])
    else
      tryValues cw bt v rest a (st ++ [Step.trying v w, Step.failedAssign v w])

/-- `CrosswordCreator.backtrack` (AC-3 variant).  Recursion depth is bounded
by the number of unassigned variables, so the fuel passed by `solve`
(`vars.length + 1`) is never exhausted in the source; fuel-out returns
`none`. -/
def backtrack (cw : CW) (doms : CrosswordVariable → List Word) :
    Nat → Assignment → List Step → Option Assignment × List Step
  | 0, _, st => (none, st)
  | fuel + 1, a, st =>
    if assignmentComplete cw a then (some a, st)
    else
      tryValues cw (backtrack cw doms fuel) (selectUnassignedVariable cw doms a)
        (orderDomainValues cw doms a (selectUnassignedVariable cw doms a)
          (doms (selectUnassignedVariable cw doms a))) a st

/-- `CrosswordCreator.revise`: with an overlap `(i, j)` recorded for
`(x, y)`, drop from `x`'s domain every word with no letter-compatible
counterpart in `y`'s domain; report whether anything was removed. -/
def revise (cw : CW) (doms : CrosswordVariable → List Word)
    (x y : CrosswordVariable) : (CrosswordVariable → List Word) × Bool :=
  match cw.overlaps x y with
  | none => (doms, false)
  | some (i, j) =>
    let keep := (doms x).filter fun wx =>
      (doms y).any fun wy => decide (charAt wx i = charAt wy j)
    (fun z => if z = x then keep else doms z, decide (keep.length ≠ (doms x).length))

/-- The `while` loop of `CrosswordCreator.ac3`.  The source pushes to and
pops from the end of the array (LIFO); the model keeps the stack top at the
head, so a batch of pushes lands reversed in front.  The loop terminates
because every iteration either shrinks a domain or shortens the queue; the
fuel supplied by `ac3` dominates that measure. -/
def ac3Loop (cw : CW) :
    Nat → List (CrosswordVariable × CrosswordVariable) →
    (CrosswordVariable → List Word) → Option (CrosswordVariable → List Word)
  | 0, _, _ => none
  | _ + 1, [], doms => some doms
  | fuel + 1, (x, y) :: rest, doms =>
    let r := revise cw doms x y
    if r.2 then
      if (r.1 x).length = 0 then none
      else
        ac3Loop cw fuel
          (((((neighbors cw x).filter fun z => decide (z ≠ y)).map fun z => (z, x)).reverse)
            ++ rest) r.1
    else ac3Loop cw fuel rest doms

/-- `CrosswordCreator.ac3`: seed the queue with every (variable, neighbor)
pair, then run the loop.  The fuel bound dominates the loop's decreasing
measure `totalDomainSize * (|vars| + 1) + |queue|`. -/
def ac3 (cw : CW) (doms : CrosswordVariable → List Word) :
    Option (CrosswordVariable → List Word) :=
  let q := cw.vars.flatMap fun v => (neighbors cw v).map fun n => (v, n)
  let fuel := ((cw.vars.map fun v => (doms v).length).sum + 1) * (cw.vars.length + 2)
    + q.length + 1
  ac3Loop cw fuel q.reverse doms

/-- `CrosswordCreator.solve` (AC-3 variant): run `ac3`; on failure return
null, otherwise backtrack from the empty assignment.  The console timer and
file output are I/O, outside the model. -/
def solve (cw : CW) (doms : CrosswordVariable → List Word) :
    Option Assignment × List Step :=
  match ac3 cw doms with
  | none => (none, [])
  | some d2 => backtrack cw d2 (cw.vars.length + 1) [] []

/-! ## Word loading (`Crossword.loadWords`) and the forward-checking variant -/

/-- ASCII case of `String.prototype.toUpperCase` (dictionary files are
ASCII word lists). -/
def jsToUpper (c : Char) : Char :=
  if 'a' ≤ c ∧ c ≤ 'z' then Char.ofNat (c.toNat - 32) else c

/-- JavaScript `new Set(word)` where `word` is a string: a string is
iterable character by character, so this is the set of the word's distinct
characters, as one-character strings, in first-occurrence order. -/
def setOfChars (w : Word) : List Word :=
  w.foldl (fun acc c => if [c] ∈ acc then acc else acc ++ [[c]]) []

/-- Association-list update/insert with JS `Map.set` semantics: replace in
place if the key exists, else append. -/
def msetN (m : List (Nat × List Word)) (k : Nat) (v : List Word) :
    List (Nat × List Word) :=
  match m with
  | [] => [(k, v)]
  | (k2, v2) :: rest => if k2 = k then (k, v) :: rest else (k2, v2) :: msetN rest k v

/-- Association-list lookup (JS `Map.get`, `none` for `undefined`). -/
def mgetN : List (Nat × List Word) → Nat → Option (List Word)
  | [], _ => none
  | (k2, v2) :: rest, k => if k2 = k then some v2 else mgetN rest k

/-- `Crossword.loadWords`: uppercase the file, split into lines, and bucket
by length.  For an existing bucket the word is added if absent; for a fresh
length the source writes `mapWords.set(word.length, new Set(word))`, i.e.
the set of the word's characters — not a set containing the word. -/
def loadWords (lines : List Word) : List (Nat × List Word) :=
  lines.foldl (fun m w0 =>
    let w := w0.map jsToUpper
    match mgetN m w.length with
    | some bucket => if w ∈ bucket then m else msetN m w.length (bucket ++ [w])
    | none => msetN m w.length (setOfChars w)) []

/-- The mutable per-length word store of the forward-checking variant.  Its
constructor does `this.domains.set(variable.id, this.crossword.words.get(variable.length))`:
every variable's domain is the *same object* as the crossword's per-length
word set, so the heap after construction is exactly one set per word
length, and a variable's domain is the bucket at its length. -/
structure FCStore where
  buckets : List (Nat × List Word)
deriving DecidableEq, Repr

def getBucket (s : FCStore) (n : Nat) : Option (List Word) := mgetN s.buckets n

def setBucket (s : FCStore) (n : Nat) (l : List Word) : FCStore :=
  ⟨msetN s.buckets n l⟩

/-- The domain reference held for a variable by the forward-checking
constructor: the shared bucket at the variable's length (`none` when no
dictionary word has that length — then the constructor stored no entry). -/
def domainOf (s : FCStore) (v : CrosswordVariable) : Option (List Word) :=
  getBucket s v.length

/-- Membership of a word in a variable's current domain. -/
def memDomain (s : FCStore) (v : CrosswordVariable) (w : Word) : Bool :=
  match domainOf s v with
  | some l => w ∈ l
  | none => false

/-- The degrees precomputed by the forward-checking constructor
(`variableDegrees`): total neighbor count. -/
def fcDegrees (cw : CW) (v : CrosswordVariable) : Nat := (neighbors cw v).length

/-- Exceptions: a thrown JS `TypeError` from dereferencing a missing domain
(`this.domains.get(...)!` yielding `undefined`). -/
abbrev M (α : Type) := Except Unit α

/-- Resolve each variable's domain size, as the sort comparator of the
forward-checking `selectUnassignedVariable` does
(`this.domains.get(a.id)!.size`); a missing entry throws. -/
def fetchSizes (s : FCStore) :
    List CrosswordVariable → M (List (CrosswordVariable × Nat))
  | [] => Except.ok []
  | v :: rest =>
    match domainOf s v with
    | none => Except.error ()
    | some d =>
      match fetchSizes s rest with
      | Except.error e => Except.error e
      | Except.ok l => Except.ok ((v, d.length) :: l)

/-- MRV comparator of the forward-checking variant: ascending domain size,
ties by descending precomputed total degree. -/
def leSelFC (cw : CW) (p q : CrosswordVariable × Nat) : Bool :=
  decide (p.2 < q.2 ∨ (p.2 = q.2 ∧ fcDegrees cw q.1 ≤ fcDegrees cw p.1))

/-- `selectUnassignedVariable` of the forward-checking variant.  Sorting
dereferences every unassigned variable's domain (throwing on a missing
entry); with a single unassigned variable the source defers the throw to
`backtrack`'s own dereference, with the same observable outcome (`solve`
throws), so the model resolves sizes up front.  `unassignedVariables[0]` on
an empty list would also throw. -/
def fcSelect (cw : CW) (s : FCStore) (a : Assignment) : M CrosswordVariable :=
  match fetchSizes s (unassignedF cw a) with
  | Except.error e => Except.error e
  | Except.ok sized =>
    match sortBy (leSelFC cw) sized with
    | [] => Except.error ()
    | p :: _ => Except.ok p.1

/-- `orderDomainValues` of the forward-checking variant: same LCV count,
but domains are dereferenced through the store (`this.domains.get(neighborId)!`,
reached only when there is at least one value to score). -/
def fcOrderDomainValues (cw : CW) (s : FCStore) (a : Assignment)
    (v : CrosswordVariable) (vals : List Word) : M (List Word) :=
  match vals with
  | [] => Except.ok []
  | _ =>
    let unassignedNeighbors := (neighbors cw v).filter fun n => (alookup a n).isNone
    match fetchSizes s unassignedNeighbors with
    | Except.error e => Except.error e
    | Except.ok _ =>
      let constraintCount := fun (w : Word) =>
        unassignedNeighbors.foldl (fun acc n =>
          match cw.overlaps v n, domainOf s n with
          | some (i, j), some nd =>
            acc + (nd.length -
              (nd.filter fun nw => decide (charAt w i = charAt nw j)).length)
          | _, _ => acc) 0
      Except.ok (sortBy (fun w1 w2 => constraintCount w1 ≤ constraintCount w2) vals)

/-- The neighbor loop of `forwardCheck` (part_000).  For each unassigned
neighbor with an overlap, the values letter-incompatible with the assigned
word are deleted from the neighbor's (shared) bucket and recorded in the
`inferences` log; an emptied bucket aborts with `false` at once.  The log
is returned — and, as in the source, never consulted again. -/
def fcForwardCheckGo (cw : CW) (v : CrosswordVariable) (w : Word)
    (a : Assignment) :
    List CrosswordVariable → FCStore → List (CrosswordVariable × List Word) →
    M (Bool × FCStore × List (CrosswordVariable × List Word))
  | [], s, infs => Except.ok (true, s, infs)
  | n :: rest, s, infs =>
    if (alookup a n).isSome then fcForwardCheckGo cw v w a rest s infs
    else
      match domainOf s n with
      | none => Except.error ()
      | some nd =>
        match cw.overlaps v n with
        | some (i, j) =>
          let toRemove := nd.filter fun nw => decide (charAt w i ≠ charAt nw j)
          if toRemove.length ≠ 0 then
            let nd2 := nd.filter fun nw => decide (charAt w i = charAt nw j)
            let s2 := setBucket s n.length nd2
            let infs2 := infs ++ [(n, toRemove)]
            if nd2.length = 0 then Except.ok (false, s2, infs2)
            else fcForwardCheckGo cw v w a rest s2 infs2
          else fcForwardCheckGo cw v w a rest s infs
        | none => fcForwardCheckGo cw v w a rest s infs

/-- `CrosswordCreator.forwardCheck` (part_000), over all neighbors of the
just-assigned variable, starting from an empty inference log. -/
def fcForwardCheck (cw : CW) (s : FCStore) (v : CrosswordVariable) (w : Word)
    (a : Assignment) :
    M (Bool × FCStore × List (CrosswordVariable × List Word)) :=
  fcForwardCheckGo cw v w a (neighbors cw v) s []

/-- The value loop of the forward-checking `backtrack`.  Note: when a branch
fails — whether `forwardCheck` reported a dead end or the recursive search
returned null — the source only does `assignment.delete(varId)`; the
inference log built by `forwardCheck` is discarded without restoring the
deleted domain values. -/
def fcTryValues (cw : CW)
    (bt : Assignment → FCStore → M (Option Assignment × FCStore))
    (v : CrosswordVariable) :
    List Word → Assignment → FCStore → M (Option Assignment × FCStore)
  | [], _, s => Except.ok (none, s)
  | w :: rest, a, s =>
    let a2 := (v, w) :: a
    if consistentB cw v a2 then
      match fcForwardCheck cw s v w a2 with
      | Except.error e => Except.error e
      | Except.ok (ok, s2, _) =>
        if ok then
          match bt a2 s2 with
          | Except.error e => Except.error e
          | Except.ok (some r, s3) => Except.ok (some r, s3)
          | Except.ok (none, s3) => fcTryValues cw bt v rest a s3
        else fcTryValues cw bt v rest a s2
    else fcTryValues cw bt v rest a s

/-- `backtrack` of the forward-checking variant.  `Array.from(this.domains.get(varId)!)`
throws when the selected variable has no domain entry. -/
def fcBacktrack (cw : CW) :
    Nat → Assignment → FCStore → M (Option Assignment × FCStore)
  | 0, _, s => Except.ok (none, s)
  | fuel + 1, a, s =>
    if assignmentComplete cw a then Except.ok (some a, s)
    else
      match fcSelect cw s a with
      | Except.error e => Except.error e
      | Except.ok v =>
        match domainOf s v with
        | none => Except.error ()
        | some dvals =>
          match fcOrderDomainValues cw s a v dvals with
          | Except.error e => Except.error e
          | Except.ok ordered => fcTryValues cw (fcBacktrack cw fuel) v ordered a s

/-- `solve` of the forward-checking variant: no pre-pruning, backtrack from
the empty assignment. -/
def fcSolve (cw : CW) (s : FCStore) : M (Option Assignment × FCStore) :=
  fcBacktrack cw (cw.vars.length + 1) [] s

/-! ## Grid model (`Crossword.findVariables`) -/

/-- A rectangular boolean grid of fillable flags (`this.structure` with
`height`/`width`; `structure` is a reserved word in Lean, hence `fill`). -/
structure Grid where
  height : Nat
  width : Nat
  fill : Nat → Nat → Bool

/-- Length of the consecutive run of `true` cells starting at index `i`,
looking at most `remaining` cells (the source loop `for (k = i; k < bound
&& fill k; k++)` with `remaining = bound - i`). -/
def runCount (f : Nat → Bool) : Nat → Nat → Nat
  | 0, _ => 0
  | r + 1, i => if f i then runCount f r (i + 1) + 1 else 0

/-- The downward run of fillable cells from `(i, j)` (stops at the grid's
bottom edge). -/
def runDown (g : Grid) (i j : Nat) : Nat :=
  runCount (fun k => g.fill k j) (g.height - i) i

/-- The rightward run of fillable cells from `(i, j)`. -/
def runRight (g : Grid) (i j : Nat) : Nat :=
  runCount (fun k => g.fill i k) (g.width - j) j

/-- `Crossword.findVariables`: scan cells in row-major order; at each cell
that starts a vertical (resp. horizontal) run — fillable, with the cell
above (resp. left) out of grid or blocked — compute the run length
(`1 +` the loop count from the next cell) and register a DOWN
(resp. ACROSS) variable when it exceeds 1. -/
def findVariables (g : Grid) : List CrosswordVariable :=
  (List.range g.height).flatMap fun i =>
    (List.range g.width).flatMap fun j =>
      (if g.fill i j ∧ (i = 0 ∨ ¬ g.fill (i - 1) j) then
        (let len := 1 + runCount (fun k => g.fill k j) (g.height - (i + 1)) (i + 1)
         if 1 < len then [⟨i, j, Dir.down, len⟩] else [])
       else []) ++
      (if g.fill i j ∧ (j = 0 ∨ ¬ g.fill i (j - 1)) then
        (let len := 1 + runCount (fun k => g.fill i k) (g.width - (j + 1)) (j + 1)
         if 1 < len then [⟨i, j, Dir.across, len⟩] else [])
       else [])

/-! ## Well-formedness predicates -/

/-- Symmetry of the stored overlap relation on the registered variables:
`computeOverlaps` stores, for a pair sharing a single cell, the
direction-specific index pairs `(i, j)` and `(j, i)` (and no entry for a
pair with no shared cell, nor for a variable with itself).  Well-formed
grids — where two slots share at most one cell — always satisfy this. -/
def OverlapSym (cw : CW) : Prop :=
  ∀ v ∈ cw.vars, ∀ u ∈ cw.vars,
    cw.overlaps u v = (cw.overlaps v u).map fun p => (p.2, p.1)

/-- The constraint-satisfaction contract on a finished assignment: each
word has its variable's length, no word is used by two distinct variables,
and assigned words agree at every recorded overlap of distinct variables. -/
def SatAssign (cw : CW) (r : Assignment) : Prop :=
  (∀ p ∈ r, (p.2 : Word).length = p.1.length) ∧
  (∀ p ∈ r, ∀ q ∈ r, p.1 ≠ q.1 → p.2 ≠ q.2) ∧
  (∀ p ∈ r, ∀ q ∈ r, p.1 ≠ q.1 → ∀ i j, cw.overlaps p.1 q.1 = some (i, j) →
    charAt p.2 i = charAt q.2 j)

/-- Every registered variable carries an assigned word. -/
def CompleteA (cw : CW) (r : Assignment) : Prop :=
  ∀ v ∈ cw.vars, ∃ w, alookup r v = some w

/-! ## Concrete instances for counterexamples and witnesses -/

/-- C1 instance: an across slot of length 2 crossing a down slot of length
3 at both slots' first cell. -/
def xC1 : CrosswordVariable := ⟨0, 0, Dir.across, 2⟩

def yC1 : CrosswordVariable := ⟨0, 0, Dir.down, 3⟩

def cwC1 : CW :=
  ⟨[xC1, yC1], fun v u =>
    if v = xC1 ∧ u = yC1 then some (0, 0)
    else if v = yC1 ∧ u = xC1 then some (0, 0)
    else none⟩

/-- C1 store: one length-2 word AB, one length-3 word CDE (no shared first
letter, so assigning AB wipes the length-3 bucket). -/
def storeC1 : FCStore := ⟨[(2, [['A', 'B']]), (3, [['C', 'D', 'E']])]⟩

/-- C2 instance: a dictionary file containing the lines cat and dog. -/
def dictC2 : List Word := [['c', 'a', 't'], ['d', 'o', 'g']]

def storeC2 : FCStore := ⟨loadWords dictC2⟩

def zC2 : CrosswordVariable := ⟨0, 0, Dir.across, 3⟩

/-- C3 witness instance: a single across slot of length 3, no overlaps. -/
def xC3 : CrosswordVariable := ⟨0, 0, Dir.across, 3⟩

def cwC3 : CW := ⟨[xC3], fun _ _ => none⟩

def domsC3 : CrosswordVariable → List Word :=
  fun v => if v = xC3 then [['C', 'A', 'T'], ['D', 'O', 'G']] else []

/-- C4 witness instance: two crossing slots, both assigned, agreeing at the
overlap. -/
def xC4 : CrosswordVariable := ⟨0, 0, Dir.across, 2⟩

def yC4 : CrosswordVariable := ⟨0, 0, Dir.down, 3⟩

def cwC4 : CW :=
  ⟨[xC4, yC4], fun v u =>
    if v = xC4 ∧ u = yC4 then some (0, 0)
    else if v = yC4 ∧ u = xC4 then some (0, 0)
    else none⟩

def aC4 : Assignment := [(xC4, ['A', 'B']), (yC4, ['A', 'C', 'D'])]

/-- C5 witness instance: forward checking removes BCD from the crossing
slot but keeps AXY. -/
def xC5 : CrosswordVariable := ⟨0, 0, Dir.across, 2⟩

def yC5 : CrosswordVariable := ⟨0, 0, Dir.down, 3⟩

def cwC5 : CW :=
  ⟨[xC5, yC5], fun v u =>
    if v = xC5 ∧ u = yC5 then some (0, 0)
    else if v = yC5 ∧ u = xC5 then some (0, 0)
    else none⟩

def storeC5 : FCStore := ⟨[(2, [['A', 'B']]), (3, [['A', 'X', 'Y'], ['B', 'C', 'D']])]⟩

/-- C6 witness instance: three slots; revising (x, y) removes BB from x's
domain and re-enqueues (z, x). -/
def xC6 : CrosswordVariable := ⟨0, 0, Dir.across, 2⟩

def yC6 : CrosswordVariable := ⟨0, 0, Dir.down, 2⟩

def zC6 : CrosswordVariable := ⟨1, 0, Dir.across, 2⟩

def cwC6 : CW :=
  ⟨[xC6, yC6, zC6], fun v u =>
    if v = xC6 ∧ u = yC6 then some (0, 0)
    else if v = yC6 ∧ u = xC6 then some (0, 0)
    else if v = yC6 ∧ u = zC6 then some (1, 0)
    else if v = zC6 ∧ u = yC6 then some (0, 1)
    else if v = xC6 ∧ u = zC6 then some (0, 0)
    else if v = zC6 ∧ u = xC6 then some (0, 0)
    else none⟩

def domsC6 : CrosswordVariable → List Word :=
  fun v =>
    if v = xC6 then [['A', 'A'], ['B', 'B']]
    else if v = yC6 then [['A', 'C']]
    else if v = zC6 then [['A', 'B'], ['B', 'B']]
    else []

/-- C7 counterexample: the 3x3 grid with rows q q blocked / fill fill fill /
fill fill fill gives, in scan order, a length-3 DOWN slot p at (0,0), a
length-2 ACROSS slot y at (0,0), a length-3 DOWN slot q at (0,1), a
length-3 ACROSS slot w at (1,0), a length-2 DOWN slot v at (1,2) and a
length-3 ACROSS slot x at (2,0). -/
def pC7 : CrosswordVariable := ⟨0, 0, Dir.down, 3⟩

def yC7 : CrosswordVariable := ⟨0, 0, Dir.across, 2⟩

def qC7 : CrosswordVariable := ⟨0, 1, Dir.down, 3⟩

def wC7 : CrosswordVariable := ⟨1, 0, Dir.across, 3⟩

def vC7 : CrosswordVariable := ⟨1, 2, Dir.down, 2⟩

def xC7 : CrosswordVariable := ⟨2, 0, Dir.across, 3⟩

/-- The overlap relation of the C7 grid (both directions of each crossing
pair, with the cell indices inside each slot). -/
def overlapsC7 (v u : CrosswordVariable) : Option (Nat × Nat) :=
  if v = pC7 ∧ u = yC7 then some (0, 0) else if v = yC7 ∧ u = pC7 then some (0, 0)
  else if v = pC7 ∧ u = wC7 then some (1, 0) else if v = wC7 ∧ u = pC7 then some (0, 1)
  else if v = pC7 ∧ u = xC7 then some (2, 0) else if v = xC7 ∧ u = pC7 then some (0, 2)
  else if v = qC7 ∧ u = yC7 then some (0, 1) else if v = yC7 ∧ u = qC7 then some (1, 0)
  else if v = qC7 ∧ u = wC7 then some (1, 1) else if v = wC7 ∧ u = qC7 then some (1, 1)
  else if v = qC7 ∧ u = xC7 then some (2, 1) else if v = xC7 ∧ u = qC7 then some (1, 2)
  else if v = vC7 ∧ u = wC7 then some (0, 2) else if v = wC7 ∧ u = vC7 then some (2, 0)
  else if v = vC7 ∧ u = xC7 then some (1, 2) else if v = xC7 ∧ u = vC7 then some (2, 1)
  else none

def cwC7 : CW := ⟨[pC7, yC7, qC7, wC7, vC7, xC7], overlapsC7⟩

/-- Arc-consistent domains for the C7 grid (every arc already satisfied, so
`ac3` prunes nothing): the down slot v has a single word, forcing the first
selection; y and x tie at two words each. -/
def domsC7 : CrosswordVariable → List Word :=
  fun z =>
    if z = pC7 then [['A', 'A', 'A'], ['B', 'A', 'A'], ['A', 'A', 'B']]
    else if z = qC7 then [['A', 'A', 'A'], ['A', 'B', 'A'], ['A', 'C', 'A']]
    else if z = wC7 then [['A', 'A', 'A'], ['A', 'B', 'A'], ['A', 'C', 'A']]
    else if z = vC7 then [['A', 'A']]
    else if z = yC7 then [['A', 'A'], ['B', 'A']]
    else if z = xC7 then [['A', 'A', 'A'], ['B', 'A', 'A']]
    else []

/-- C8 witness grid: 3x3, top-right cell blocked. -/
def gridC8 : Grid :=
  ⟨3, 3, fun i j => if i = 0 then decide (j < 2) else decide (j < 3)⟩

/-- C9 witness instance: one across slot of length 3, an empty word store
(no dictionary word of length 3, so the constructor stored no domain). -/
def sC9 : CrosswordVariable := ⟨0, 0, Dir.across, 3⟩

def cwC9 : CW := ⟨[sC9], fun _ _ => none⟩

def storeC9 : FCStore := ⟨[]⟩

/-- C10 witness instance: two crossing slots of the same length 2, sharing
one bucket; forward checking after assigning AA to the across slot deletes
BA from the shared bucket. -/
def xC10 : CrosswordVariable := ⟨0, 0, Dir.across, 2⟩

def uC10 : CrosswordVariable := ⟨0, 0, Dir.down, 2⟩

def cwC10 : CW :=
  ⟨[xC10, uC10], fun v u =>
    if v = xC10 ∧ u = uC10 then some (0, 0)
    else if v = uC10 ∧ u = xC10 then some (0, 0)
    else none⟩

def storeC10 : FCStore := ⟨[(2, [['A', 'A'], ['B', 'A']])]⟩

/-- The search invariant of the AC-3 variant's backtracking: distinct
assignment keys, keys among the registered variables, every binding
length-correct, and the pairwise word-uniqueness and overlap-agreement
constraints holding between all bound pairs. -/
def InvA (cw : CW) (a : Assignment) : Prop :=
  (a.map Prod.fst).Nodup ∧
  (∀ p ∈ a, p.1 ∈ cw.vars) ∧
  (∀ p ∈ a, (p.2 : Word).length = p.1.length) ∧
  (∀ p ∈ a, ∀ q ∈ a, p.1 ≠ q.1 → p.2 ≠ q.2) ∧
  (∀ p ∈ a, ∀ q ∈ a, p.1 ≠ q.1 → ∀ i j, cw.overlaps p.1 q.1 = some (i, j) →
    charAt p.2 i = charAt q.2 j)

/-! ## Helper lemmas -/

theorem mem_insertLe (le : α → α → Bool) (x a : α) (l : List α) :
    a ∈ insertLe le x l ↔ a = x ∨ a ∈ l := by
  induction l with
  | nil => simp [insertLe]
  | cons y ys ih =>
    by_cases h : le x y = true
    · simp [insertLe, h]
    · simp only [insertLe, h, if_neg, List.mem_cons, ih, Bool.false_eq_true, if_false]
      tauto

theorem mem_sortBy (le : α → α → Bool) (a : α) (l : List α) :
    a ∈ sortBy le l ↔ a ∈ l := by
  induction l with
  | nil => simp [sortBy]
  | cons x xs ih => simp [sortBy, mem_insertLe, ih]

/-- Sortedness of insertion sort, for a total, transitive comparator. -/
theorem pairwise_insertLe (le : α → α → Bool)
    (htot : ∀ a b, le a b = true ∨ le b a = true)
    (htrans : ∀ a b c, le a b = true → le b c = true → le a c = true)
    (x : α) (l : List α)
    (hl : l.Pairwise (fun a b => le a b = true)) :
    (insertLe le x l).Pairwise (fun a b => le a b = true) := by
  induction l with
  | nil => simp [insertLe]
  | cons y ys ih =>
    rcases List.pairwise_cons.mp hl with ⟨hy, hys⟩
    by_cases h : le x y = true
    · rw [insertLe, if_pos h]
      refine List.pairwise_cons.mpr ⟨?_, hl⟩
      intro b hb
      rcases List.mem_cons.mp hb with rfl | hb
      · exact h
      · exact htrans x y b h (hy b hb)
    · rw [insertLe, if_neg h]
      refine List.pairwise_cons.mpr ⟨?_, ih hys⟩
      intro b hb
      rcases (mem_insertLe le x b ys).mp hb with rfl | hb
      · rcases htot y b with hyb | hby
        · exact hyb
        · exact absurd hby h
      · exact hy b hb

theorem pairwise_sortBy (le : α → α → Bool)
    (htot : ∀ a b, le a b = true ∨ le b a = true)
    (htrans : ∀ a b c, le a b = true → le b c = true → le a c = true)
    (l : List α) :
    (sortBy le l).Pairwise (fun a b => le a b = true) := by
  induction l with
  | nil => simp [sortBy]
  | cons x xs ih => exact pairwise_insertLe le htot htrans x (sortBy le xs) ih

theorem headI_le_mem (le : α → α → Bool) [Inhabited α]
    (htot : ∀ a b, le a b = true ∨ le b a = true)
    (htrans : ∀ a b c, le a b = true → le b c = true → le a c = true)
    (l : List α) (a : α) (ha : a ∈ sortBy le l) :
    le ((sortBy le l).headI) a = true := by
  rcases hs : sortBy le l with _ | ⟨h, t⟩
  · rw [hs] at ha; cases ha
  · have hp := pairwise_sortBy le htot htrans l
    rw [hs] at ha hp
    rcases List.mem_cons.mp ha with rfl | ha
    · rcases htot a a with h1 | h1 <;> simpa using h1
    · exact (List.pairwise_cons.mp hp).1 a ha

theorem alookup_mem {a : Assignment} {v : CrosswordVariable} {w : Word}
    (h : alookup a v = some w) : (v, w) ∈ a := by
  induction a with
  | nil => simp [alookup] at h
  | cons p rest ih =>
    rcases p with ⟨u, w2⟩
    by_cases hu : u = v
    · subst hu
      rw [alookup, if_pos rfl] at h
      cases h
      exact List.mem_cons_self _ _
    · rw [alookup, if_neg hu] at h
      exact List.mem_cons_of_mem _ (ih h)

theorem mem_alookup {a : Assignment} {v : CrosswordVariable} {w : Word}
    (hnd : (a.map Prod.fst).Nodup) (h : (v, w) ∈ a) : alookup a v = some w := by
  induction a with
  | nil => cases h
  | cons p rest ih =>
    rcases p with ⟨u, w2⟩
    rcases List.mem_cons.mp h with heq | hmem
    · cases heq
      rw [alookup, if_pos rfl]
    · have hu : u ≠ v := by
        rintro rfl
        exact (List.nodup_cons.mp hnd).1 (List.mem_map.mpr ⟨(u, w), hmem, rfl⟩)
      rw [alookup, if_neg hu]
      exact ih (List.nodup_cons.mp hnd).2 hmem

theorem alookup_none_iff {a : Assignment} {v : CrosswordVariable} :
    alookup a v = none ↔ ∀ w, (v, w) ∉ a := by
  induction a with
  | nil => simp [alookup]
  | cons p rest ih =>
    rcases p with ⟨u, w2⟩
    by_cases hu : u = v
    · subst hu
      rw [alookup, if_pos rfl]
      constructor
      · intro h
        cases h
      · intro h
        exact (h w2 (List.mem_cons_self _ _)).elim
    · rw [alookup, if_neg hu]
      rw [ih]
      constructor
      · intro h w hw
        rcases List.mem_cons.mp hw with heq | hmem
        · exact hu (congrArg Prod.fst heq).symm
        · exact h w hmem
      · intro h w hw
        exact h w (List.mem_cons_of_mem _ hw)

/-- `consistent` returning true yields the three declarative conditions
(the forward half of the consistency-check contract, also the inductive
step of the solver soundness proof). -/
theorem consistent_spec {cw : CW} {v : CrosswordVariable} {a : Assignment}
    {w : Word} (hw : alookup a v = some w)
    (hne : ∀ p ∈ a, p.1 ≠ v → (p.2 : Word) ≠ ([] : Word))
    (h : consistentB cw v a = true) :
    w.length = v.length ∧
    (∀ p ∈ a, p.1 ≠ v → p.2 ≠ w) ∧
    (∀ n ∈ neighbors cw v, ∀ nw, alookup a n = some nw →
      ∀ i j, cw.overlaps v n = some (i, j) → charAt w i = charAt nw j) := by
  rw [consistentB, hw] at h
  simp only [Bool.and_eq_true] at h
  rcases h with ⟨⟨h1, h2⟩, h3⟩
  refine ⟨beq_iff_eq.mp h1, ?_, ?_⟩
  · intro p hp hpv hpw
    have : a.any (fun p => decide (p.1 ≠ v) && decide (p.2 = w)) = true :=
      List.any_eq_true.mpr ⟨p, hp, by simp [hpv, hpw]⟩
    rw [this] at h2
    simp at h2
  · intro n hn nw hnw i j hov
    have hall := List.all_eq_true.mp h3 n hn
    rw [hnw] at hall
    have hnv : n ≠ v := by
      have := List.mem_filter.mp hn
      simpa using of_decide_eq_true ((Bool.and_eq_true _ _).mp this.2).1
    have hnwne : nw ≠ [] := hne (n, nw) (alookup_mem hnw) hnv
    have hall2 : (if nw = [] then true
        else
          match cw.overlaps v n with
          | none => true
          | some (i, j) => decide (charAt w i = charAt nw j)) = true := hall
    rw [if_neg hnwne, hov] at hall2
    exact of_decide_eq_true hall2

/-- Converse direction: the three declarative conditions make `consistent`
return true. -/
theorem consistent_complete {cw : CW} {v : CrosswordVariable} {a : Assignment}
    {w : Word} (hw : alookup a v = some w)
    (h1 : w.length = v.length)
    (h2 : ∀ p ∈ a, p.1 ≠ v → p.2 ≠ w)
    (h3 : ∀ n ∈ neighbors cw v, ∀ nw, alookup a n = some nw →
      ∀ i j, cw.overlaps v n = some (i, j) → charAt w i = charAt nw j) :
    consistentB cw v a = true := by
  rw [consistentB, hw]
  simp only [Bool.and_eq_true]
  refine ⟨⟨beq_iff_eq.mpr h1, ?_⟩, ?_⟩
  · rw [Bool.not_eq_true']
    by_contra hany
    rcases List.any_eq_true.mp (Bool.not_eq_false _ |>.mp hany) with ⟨p, hp, hcond⟩
    simp only [Bool.and_eq_true] at hcond
    rcases hcond with ⟨hp1, hp2⟩
    exact h2 p hp (of_decide_eq_true hp1) (of_decide_eq_true hp2)
  · refine List.all_eq_true.mpr ?_
    intro n hn
    rcases hnw : alookup a n with _ | nw
    · rfl
    · show (if nw = [] then true
        else
          match cw.overlaps v n with
          | none => true
          | some (i, j) => decide (charAt w i = charAt nw j)) = true
      by_cases hnil : nw = []
      · rw [if_pos hnil]
      · rw [if_neg hnil]
        rcases hov : cw.overlaps v n with _ | ⟨i, j⟩
        · rfl
        · exact decide_eq_true (h3 n hn nw hnw i j hov)

/-! ## Claim C1 — forward-checking backtrack does not restore pruned domains -/

/-- C1: the claim states that undoing a failed branch restores the domain
store exactly.  On the concrete two-slot puzzle `cwC1` the only branch
(AB for the across slot) fails after forward checking empties the length-3
bucket; `backtrack` removes the binding but never replays the inference
log, so after `solve` returns the no-solution result the length-3 bucket —
the down slot's domain, holding CDE before the branch — is still empty.
The inference log built by `forwardCheck` is dead: no code path reads it. -/
theorem c1_backtrack_leaks_pruning :
    getBucket storeC1 3 = some [['C', 'D', 'E']] ∧
    fcSolve cwC1 storeC1 =
      Except.ok (none, FCStore.mk [(2, [['A', 'B']]), (3, [])]) ∧
    getBucket (FCStore.mk [(2, [['A', 'B']]), (3, [])]) 3 = some [] :=
  ⟨rfl, rfl, rfl⟩

/-! ## Claim C2 — starting domains are not the length-filtered dictionary -/

/-- C2: the claim states that every starting domain equals the set of
dictionary words of the variable's length (uppercased, deduplicated).  In
`loadWords`, the first word of each length is stored as
`new Set(word)` — the set of its characters — so for the dictionary
cat, dog the length-3 bucket (and hence the starting domain of every
length-3 variable in the forward-checking variant) is C, A, T, DOG: it
misses the dictionary word CAT and contains the one-letter strings C, A, T
that are not dictionary words. -/
theorem c2_first_word_split_into_chars :
    loadWords dictC2 = [(3, [['C'], ['A'], ['T'], ['D', 'O', 'G']])] ∧
    memDomain storeC2 zC2 ['C', 'A', 'T'] = false ∧
    memDomain storeC2 zC2 ['C'] = true ∧
    ['C', 'A', 'T'] ∈ dictC2.map (List.map jsToUpper) ∧
    ['C'] ∉ dictC2.map (List.map jsToUpper) :=
  ⟨rfl, rfl, rfl, by decide, by decide⟩

/-! ## Claim C4 — the consistency check contract -/

/-- C4: for a variable `v` whose candidate word `w` is in the current
assignment, `consistent` returns true iff (a) the length matches, (b) no
other bound variable holds the same word, (c) the letters agree with every
assigned neighbor at the recorded overlap indices.  The hypothesis that no
*other* binding holds the empty word reflects the reachable states of the
search: a binding survives only after passing the length check against a
slot length that is at least 2, and the JS truthiness test
`if (neighborValue)` would silently skip an empty-word neighbor. -/
theorem c4_consistent_iff (cw : CW) (v : CrosswordVariable) (a : Assignment)
    (w : Word) (hw : alookup a v = some w)
    (hne : ∀ p ∈ a, p.1 ≠ v → (p.2 : Word) ≠ ([] : Word)) :
    consistentB cw v a = true ↔
      (w.length = v.length ∧
       (∀ p ∈ a, p.1 ≠ v → p.2 ≠ w) ∧
       (∀ n ∈ neighbors cw v, ∀ nw, alookup a n = some nw →
         ∀ i j, cw.overlaps v n = some (i, j) → charAt w i = charAt nw j)) := by
  constructor
  · exact consistent_spec hw hne
  · rintro ⟨h1, h2, h3⟩
    exact consistent_complete hw h1 h2 h3

/-- Witness for C4 at the concrete crossing pair `cwC4`, both slots
assigned with agreeing letters. -/
theorem c4_witness :
    alookup aC4 xC4 = some ['A', 'B'] ∧
    (consistentB cwC4 xC4 aC4 = true ↔
      ((['A', 'B'] : Word).length = xC4.length ∧
       (∀ p ∈ aC4, p.1 ≠ xC4 → p.2 ≠ ['A', 'B']) ∧
       (∀ n ∈ neighbors cwC4 xC4, ∀ nw, alookup aC4 n = some nw →
         ∀ i j, cwC4.overlaps xC4 n = some (i, j) →
           charAt ['A', 'B'] i = charAt nw j))) :=
  ⟨rfl, c4_consistent_iff cwC4 xC4 aC4 ['A', 'B'] rfl (by decide)⟩

/-! ## Claim C5 — propagation only shrinks domains -/

theorem mgetN_msetN (m : List (Nat × List Word)) (k : Nat) (l : List Word)
    (k2 : Nat) :
    mgetN (msetN m k l) k2 = if k2 = k then some l else mgetN m k2 := by
  induction m with
  | nil =>
    by_cases h : k2 = k
    · subst h
      simp [msetN, mgetN]
    · rw [if_neg h]
      have hne : k ≠ k2 := fun he => h he.symm
      simp [msetN, mgetN, hne]
  | cons p rest ih =>
    rcases p with ⟨k3, v3⟩
    by_cases h3 : k3 = k
    · subst h3
      rw [msetN, if_pos rfl]
      by_cases h : k2 = k3
      · subst h
        simp [mgetN]
      · have hne : k3 ≠ k2 := fun he => h he.symm
        rw [if_neg h]
        simp [mgetN, hne]
    · rw [msetN, if_neg h3]
      by_cases h : k2 = k
      · rw [if_pos h]
        subst h
        have hne : k3 ≠ k2 := fun he => h3 he
        rw [mgetN, if_neg hne, ih, if_pos rfl]
      · rw [if_neg h]
        by_cases h4 : k3 = k2
        · subst h4
          rw [mgetN, if_pos rfl, mgetN, if_pos rfl]
        · rw [mgetN, if_neg h4, mgetN, if_neg h4, ih, if_neg h]

/-- Forward checking (the neighbor loop) only ever deletes from buckets:
membership afterwards implies membership before, for every variable. -/
theorem fcGo_shrink {cw : CW} {v : CrosswordVariable} {w : Word}
    {a : Assignment} :
    ∀ (ns : List CrosswordVariable) (s : FCStore)
      (infs : List (CrosswordVariable × List Word)) (b : Bool) (s2 : FCStore)
      (infs2 : List (CrosswordVariable × List Word)),
      fcForwardCheckGo cw v w a ns s infs = Except.ok (b, s2, infs2) →
      ∀ (u : CrosswordVariable) (ww : Word),
        memDomain s2 u ww = true → memDomain s u ww = true := by
  intro ns
  induction ns with
  | nil =>
    intro s infs b s2 infs2 h u ww hm
    rw [fcForwardCheckGo] at h
    cases h
    exact hm
  | cons n rest ih =>
    intro s infs b s2 infs2 h u ww hm
    rw [fcForwardCheckGo] at h
    by_cases hassigned : (alookup a n).isSome = true
    · rw [if_pos hassigned] at h
      exact ih s infs b s2 infs2 h u ww hm
    · rw [if_neg hassigned] at h
      rcases hdom : domainOf s n with _ | nd
      · rw [hdom] at h
        cases h
      · rw [hdom] at h
        rcases hov : cw.overlaps v n with _ | ⟨i, j⟩
        · rw [hov] at h
          exact ih s infs b s2 infs2 h u ww hm
        · rw [hov] at h
          have h2 : (if (nd.filter fun nw =>
                decide (charAt w i ≠ charAt nw j)).length ≠ 0 then
              (if (nd.filter fun nw => decide (charAt w i = charAt nw j)).length = 0 then
                Except.ok (false,
                  setBucket s n.length (nd.filter fun nw => decide (charAt w i = charAt nw j)),
                  infs ++ [(n, nd.filter fun nw => decide (charAt w i ≠ charAt nw j))])
              else fcForwardCheckGo cw v w a rest
                (setBucket s n.length (nd.filter fun nw => decide (charAt w i = charAt nw j)))
                (infs ++ [(n, nd.filter fun nw => decide (charAt w i ≠ charAt nw j))]))
            else fcForwardCheckGo cw v w a rest s infs) = Except.ok (b, s2, infs2) := h
          clear h
          by_cases hrem : (nd.filter fun nw => decide (charAt w i ≠ charAt nw j)).length ≠ 0
          · rw [if_pos hrem] at h2
            set nd2 := nd.filter fun nw => decide (charAt w i = charAt nw j) with hnd2
            have hshrink : ∀ (u2 : CrosswordVariable) (w2 : Word),
                memDomain (setBucket s n.length nd2) u2 w2 = true →
                memDomain s u2 w2 = true := by
              intro u2 w2 hm2
              rw [memDomain, domainOf, getBucket] at hm2 ⊢
              rw [setBucket] at hm2
              show (match mgetN s.buckets u2.length with
                | some l => decide (w2 ∈ l)
                | none => false) = true
              rw [mgetN_msetN] at hm2
              by_cases hul : u2.length = n.length
              · rw [if_pos hul] at hm2
                rw [hul]
                rw [domainOf, getBucket] at hdom
                rw [hdom]
                have : w2 ∈ nd2 := of_decide_eq_true hm2
                exact decide_eq_true (List.mem_of_mem_filter this)
              · rw [if_neg hul] at hm2
                exact hm2
            by_cases hempty : nd2.length = 0
            · rw [if_pos hempty] at h2
              cases h2
              exact hshrink u ww hm
            · rw [if_neg hempty] at h2
              exact hshrink u ww (ih _ _ _ _ _ h2 u ww hm)
          · rw [if_neg hrem] at h2
            exact ih s infs b s2 infs2 h2 u ww hm

/-- C5: after initialization, every propagation step — an AC-3 `revise` of
any pair, and a `forwardCheck` pass after an assignment — leaves every
variable's domain a subset of its previous value (domains only shrink). -/
theorem c5_propagation_only_shrinks :
    (∀ (cw : CW) (doms : CrosswordVariable → List Word)
      (x y v : CrosswordVariable) (w : Word),
      w ∈ (revise cw doms x y).1 v → w ∈ doms v) ∧
    (∀ (cw : CW) (s : FCStore) (v : CrosswordVariable) (w : Word)
      (a : Assignment) (b : Bool) (s2 : FCStore)
      (infs : List (CrosswordVariable × List Word)),
      fcForwardCheck cw s v w a = Except.ok (b, s2, infs) →
      ∀ (u : CrosswordVariable) (ww : Word),
        memDomain s2 u ww = true → memDomain s u ww = true) := by
  constructor
  · intro cw doms x y v w h
    rw [revise] at h
    rcases hov : cw.overlaps x y with _ | ⟨i, j⟩
    · rw [hov] at h
      exact h
    · rw [hov] at h
      by_cases hv : v = x
      · subst hv
        simp only [if_pos rfl] at h
        exact List.mem_of_mem_filter h
      · simp only [if_neg hv] at h
        exact h
  · intro cw s v w a b s2 infs h u ww hm
    exact fcGo_shrink (neighbors cw v) s [] b s2 infs h u ww hm

/-- Witness for C5: the concrete forward-checking pass on `cwC5` succeeds
after deleting BCD; membership of the surviving word AXY before the pass
follows from its membership afterwards via the theorem. -/
theorem c5_witness :
    fcForwardCheck cwC5 storeC5 xC5 ['A', 'B'] [(xC5, ['A', 'B'])] =
      Except.ok (true, FCStore.mk [(2, [['A', 'B']]), (3, [['A', 'X', 'Y']])],
        [(yC5, [['B', 'C', 'D']])]) ∧
    memDomain storeC5 yC5 ['A', 'X', 'Y'] = true :=
  ⟨rfl,
   c5_propagation_only_shrinks.2 cwC5 storeC5 xC5 ['A', 'B']
     [(xC5, ['A', 'B'])] true
     (FCStore.mk [(2, [['A', 'B']]), (3, [['A', 'X', 'Y']])])
     [(yC5, [['B', 'C', 'D']])] rfl yC5 ['A', 'X', 'Y'] rfl⟩

/-! ## Claim C6 — revise removes exactly the unsupported words; AC-3 re-enqueues -/

/-- C6: (1) with no overlap recorded for `(x, y)`, `revise` removes
nothing (and reports no revision); (2) with overlap `(i, j)`, the revised
domain of `x` keeps exactly the words with a letter-compatible counterpart
in `y`'s domain, and no other variable's domain changes; (3) when the
revision removed at least one value and `x`'s domain stayed nonempty, the
AC-3 loop continues with `(z, x)` enqueued for every neighbor `z` of `x`
other than `y`.  (When the revision empties `x`'s domain, `ac3` instead
fails immediately — the spec's separate empty-domain clause.) -/
theorem c6_revise_exact_and_requeue :
    (∀ (cw : CW) (doms : CrosswordVariable → List Word)
      (x y : CrosswordVariable),
      cw.overlaps x y = none → revise cw doms x y = (doms, false)) ∧
    (∀ (cw : CW) (doms : CrosswordVariable → List Word)
      (x y : CrosswordVariable) (i j : Nat),
      cw.overlaps x y = some (i, j) →
      (∀ w, w ∈ (revise cw doms x y).1 x ↔
        w ∈ doms x ∧ ∃ wy ∈ doms y, charAt w i = charAt wy j) ∧
      (∀ z, z ≠ x → (revise cw doms x y).1 z = doms z)) ∧
    (∀ (cw : CW) (fuel : Nat) (x y : CrosswordVariable)
      (rest : List (CrosswordVariable × CrosswordVariable))
      (doms d2 : CrosswordVariable → List Word),
      revise cw doms x y = (d2, true) → (d2 x).length ≠ 0 →
      ac3Loop cw (fuel + 1) ((x, y) :: rest) doms =
        ac3Loop cw fuel
          ((((neighbors cw x).filter fun z => decide (z ≠ y)).map fun z => (z, x)).reverse
            ++ rest) d2 ∧
      ∀ z ∈ neighbors cw x, z ≠ y →
        (z, x) ∈ (((neighbors cw x).filter fun z => decide (z ≠ y)).map
          fun z => (z, x)).reverse ++ rest) := by
  refine ⟨?_, ?_, ?_⟩
  · intro cw doms x y hov
    rw [revise, hov]
  · intro cw doms x y i j hov
    constructor
    · intro w
      have hr : (revise cw doms x y).1 x =
          if x = x then
            List.filter (fun wx => (doms y).any fun wy =>
              decide (charAt wx i = charAt wy j)) (doms x)
          else doms x := by
        rw [revise, hov]
      rw [hr, if_pos (rfl : x = x), List.mem_filter]
      constructor
      · rintro ⟨hmem, hany⟩
        rcases List.any_eq_true.mp hany with ⟨wy, hwy, hc⟩
        exact ⟨hmem, wy, hwy, of_decide_eq_true hc⟩
      · rintro ⟨hmem, wy, hwy, hc⟩
        exact ⟨hmem, List.any_eq_true.mpr ⟨wy, hwy, decide_eq_true hc⟩⟩
    · intro z hz
      have hr : (revise cw doms x y).1 z =
          if z = x then
            List.filter (fun wx => (doms y).any fun wy =>
              decide (charAt wx i = charAt wy j)) (doms x)
          else doms z := by
        rw [revise, hov]
      rw [hr]
      exact if_neg hz
  · intro cw fuel x y rest doms d2 hrev h0
    constructor
    · rw [ac3Loop, hrev]
      show (if ((d2, true) : _ × Bool).2 then _ else _) = _
      rw [if_pos rfl]
      show (if (d2 x).length = 0 then none else _) = _
      rw [if_neg h0]
    · intro z hz hzy
      apply List.mem_append_left
      rw [List.mem_reverse]
      exact List.mem_map.mpr ⟨z, List.mem_filter.mpr ⟨hz, decide_eq_true hzy⟩, rfl⟩

/-- Witness for C6 on the concrete three-slot instance `cwC6`: no overlap
between a variable and itself; revising `(x, y)` keeps exactly AA; the loop
step re-enqueues `(z, x)`. -/
theorem c6_witness :
    (cwC6.overlaps xC6 xC6 = none ∧ revise cwC6 domsC6 xC6 xC6 = (domsC6, false)) ∧
    (['A', 'A'] ∈ (revise cwC6 domsC6 xC6 yC6).1 xC6 ↔
      ['A', 'A'] ∈ domsC6 xC6 ∧
        ∃ wy ∈ domsC6 yC6, charAt ['A', 'A'] 0 = charAt wy 0) ∧
    (ac3Loop cwC6 6 [(xC6, yC6)] domsC6 =
      ac3Loop cwC6 5
        ((((neighbors cwC6 xC6).filter fun z => decide (z ≠ yC6)).map
          fun z => (z, xC6)).reverse ++ []) (revise cwC6 domsC6 xC6 yC6).1 ∧
     (zC6, xC6) ∈ (((neighbors cwC6 xC6).filter fun z => decide (z ≠ yC6)).map
        fun z => (z, xC6)).reverse ++ ([] : List (CrosswordVariable × CrosswordVariable))) :=
  ⟨⟨rfl, c6_revise_exact_and_requeue.1 cwC6 domsC6 xC6 xC6 rfl⟩,
   (c6_revise_exact_and_requeue.2.1 cwC6 domsC6 xC6 yC6 0 0 rfl).1 ['A', 'A'],
   (c6_revise_exact_and_requeue.2.2 cwC6 5 xC6 yC6 [] domsC6
      (revise cwC6 domsC6 xC6 yC6).1 rfl (by decide)).1,
   (c6_revise_exact_and_requeue.2.2 cwC6 5 xC6 yC6 [] domsC6
      (revise cwC6 domsC6 xC6 yC6).1 rfl (by decide)).2 zC6 (by decide) (by decide)⟩

/-! ## Claim C9 — a missing per-length bucket makes the FC variant throw -/

theorem fetchSizes_error {s : FCStore} {v : CrosswordVariable}
    {l : List CrosswordVariable} (hv : v ∈ l)
    (hmiss : domainOf s v = none) :
    fetchSizes s l = Except.error () := by
  induction l with
  | nil => cases hv
  | cons u rest ih =>
    rw [fetchSizes]
    rcases List.mem_cons.mp hv with rfl | hmem
    · rw [hmiss]
    · rcases hdu : domainOf s u with _ | d
      · rfl
      · rw [ih hmem]

/-- C9: in the forward-checking variant, when the dictionary holds no word
of some registered variable's length, the crossword's word map has no
bucket for that length, hence the constructor stored no domain entry for
the variable; the very first `backtrack` call then dereferences the missing
entry (`this.domains.get(...)!` inside the MRV sort, or `Array.from` of it)
and `solve` throws instead of returning null. -/
theorem c9_missing_domain_throws (cw : CW) (s : FCStore) (v : CrosswordVariable)
    (hv : v ∈ cw.vars) (hmiss : domainOf s v = none) :
    fcSolve cw s = Except.error () := by
  have hlen : cw.vars.length ≠ 0 := by
    intro h0
    rw [List.length_eq_zero] at h0
    rw [h0] at hv
    cases hv
  show fcBacktrack cw (cw.vars.length + 1) [] s = Except.error ()
  rw [fcBacktrack]
  have hcomp : assignmentComplete cw ([] : Assignment) = false := by
    rw [assignmentComplete]
    simpa using fun h => hlen h.symm
  rw [hcomp]
  have hsel : fcSelect cw s [] = Except.error () := by
    rw [fcSelect]
    have hun : unassignedF cw ([] : Assignment) = cw.vars :=
      List.filter_eq_self.mpr fun a _ => rfl
    rw [hun, fetchSizes_error hv hmiss]
  rw [if_neg (by simp), hsel]

/-- Witness for C9: the single length-3 slot with an empty word store. -/
theorem c9_witness : fcSolve cwC9 storeC9 = Except.error () :=
  c9_missing_domain_throws cwC9 storeC9 sC9 (by decide) rfl

/-! ## Claim C10 — same-length variables share one domain set -/

/-- C10: in the forward-checking variant the constructor binds every
variable of a given length to the crossword's per-length word set itself
(`domainOf` reads the shared bucket), so two variables of equal length
always see the same domain object; consequently, when a forward-checking
pass deletes a word from one variable's domain, the word is simultaneously
gone from the domain of every variable of that length. -/
theorem c10_same_length_share_domain :
    (∀ (s : FCStore) (x u : CrosswordVariable), x.length = u.length →
      domainOf s x = domainOf s u) ∧
    (∀ (cw : CW) (s : FCStore) (v : CrosswordVariable) (w : Word)
      (a : Assignment) (b : Bool) (s2 : FCStore)
      (infs : List (CrosswordVariable × List Word)),
      fcForwardCheck cw s v w a = Except.ok (b, s2, infs) →
      ∀ (u : CrosswordVariable) (ww : Word),
        memDomain s u ww = true → memDomain s2 u ww = false →
        ∀ x, x.length = u.length → memDomain s2 x ww = false) := by
  constructor
  · intro s x u h
    rw [domainOf, domainOf, h]
  · intro cw s v w a b s2 infs _ u ww _ hafter x hx
    rw [memDomain, domainOf] at hafter ⊢
    rw [hx]
    exact hafter

/-- Witness for C10: on the shared length-2 bucket of `cwC10`, forward
checking after assigning AA to the across slot deletes BA; the theorem then
yields that BA is also absent from the across slot's own domain. -/
theorem c10_witness :
    fcForwardCheck cwC10 storeC10 xC10 ['A', 'A'] [(xC10, ['A', 'A'])] =
      Except.ok (true, FCStore.mk [(2, [['A', 'A']])], [(uC10, [['B', 'A']])]) ∧
    memDomain (FCStore.mk [(2, [['A', 'A']])]) xC10 ['B', 'A'] = false :=
  ⟨rfl,
   c10_same_length_share_domain.2 cwC10 storeC10 xC10 ['A', 'A']
     [(xC10, ['A', 'A'])] true (FCStore.mk [(2, [['A', 'A']])])
     [(uC10, [['B', 'A']])] rfl uC10 ['B', 'A'] rfl rfl xC10 rfl⟩

/-! ## Claim C7 — MRV variable selection and the degree tie-break -/

/-- C7 counterexample: on the concrete 3x3 puzzle `cwC7` with the
arc-consistent domains `domsC7`, `solve` first assigns the single-word
down slot v (the trace's first two events), and the second search step
selects the top across slot y — although the bottom across slot x is also
unassigned, ties y on current domain size (2 words each), and has three
neighbors to y's two.  The AC-3 variant breaks MRV ties by the count of
*unassigned* neighbors (2 for both, since one of x's three neighbors is the
just-assigned v), not by total neighbor count as the claim states, and the
stable sort then keeps y first.  So the selected variable is not one with
the most neighbors among those tied on domain size. -/
theorem c7_counterexample :
    (solve cwC7 domsC7).2.take 3 =
      [Step.trying vC7 ['A', 'A'], Step.assigned vC7 ['A', 'A'],
       Step.trying yC7 ['A', 'A']] ∧
    selectUnassignedVariable cwC7 domsC7 [(vC7, ['A', 'A'])] = yC7 ∧
    alookup [(vC7, ['A', 'A'])] xC7 = none ∧
    (domsC7 yC7).length = (domsC7 xC7).length ∧
    (neighbors cwC7 xC7).length = 3 ∧
    (neighbors cwC7 yC7).length = 2 :=
  ⟨rfl, rfl, rfl, rfl, rfl, rfl⟩

theorem lexLe_total (k1 k2 : α → Nat) (x y : α) :
    decide (k1 x < k1 y ∨ (k1 x = k1 y ∧ k2 y ≤ k2 x)) = true ∨
    decide (k1 y < k1 x ∨ (k1 y = k1 x ∧ k2 x ≤ k2 y)) = true := by
  by_cases h : k1 x < k1 y ∨ (k1 x = k1 y ∧ k2 y ≤ k2 x)
  · exact Or.inl (decide_eq_true h)
  · right
    apply decide_eq_true
    omega

theorem lexLe_trans (k1 k2 : α → Nat) (x y z : α)
    (h1 : decide (k1 x < k1 y ∨ (k1 x = k1 y ∧ k2 y ≤ k2 x)) = true)
    (h2 : decide (k1 y < k1 z ∨ (k1 y = k1 z ∧ k2 z ≤ k2 y)) = true) :
    decide (k1 x < k1 z ∨ (k1 x = k1 z ∧ k2 z ≤ k2 x)) = true := by
  have h1 := of_decide_eq_true h1
  have h2 := of_decide_eq_true h2
  apply decide_eq_true
  omega

theorem insertLe_ne_nil (le : α → α → Bool) (x : α) (l : List α) :
    insertLe le x l ≠ [] := by
  cases l with
  | nil => simp [insertLe]
  | cons y ys =>
    rw [insertLe]
    split <;> simp

theorem sortBy_ne_nil (le : α → α → Bool) (l : List α) (h : l ≠ []) :
    sortBy le l ≠ [] := by
  cases l with
  | nil => exact absurd rfl h
  | cons x xs =>
    rw [sortBy]
    exact insertLe_ne_nil le x (sortBy le xs)

theorem select_mem {cw : CW} {doms : CrosswordVariable → List Word}
    {a : Assignment} (h : unassignedF cw a ≠ []) :
    selectUnassignedVariable cw doms a ∈ unassignedF cw a := by
  have hx : (sortBy (leSel cw doms a) (unassignedF cw a)).headI ∈
      sortBy (leSel cw doms a) (unassignedF cw a) := by
    rcases hs : sortBy (leSel cw doms a) (unassignedF cw a) with _ | ⟨x, t⟩
    · exact absurd hs (sortBy_ne_nil _ _ h)
    · exact List.mem_cons_self x t
  exact (mem_sortBy _ _ _).mp hx

theorem fetchSizes_ok {s : FCStore} :
    ∀ {l : List CrosswordVariable} {r : List (CrosswordVariable × Nat)},
      fetchSizes s l = Except.ok r →
      r.map Prod.fst = l ∧
      ∀ p ∈ r, ∃ d, domainOf s p.1 = some d ∧ p.2 = d.length := by
  intro l
  induction l with
  | nil =>
    intro r h
    rw [fetchSizes] at h
    cases h
    exact ⟨rfl, by simp⟩
  | cons u rest ih =>
    intro r h
    rw [fetchSizes] at h
    rcases hdu : domainOf s u with _ | d
    · rw [hdu] at h
      cases h
    · rw [hdu] at h
      rcases hfs : fetchSizes s rest with e | r2
      · rw [hfs] at h
        cases h
      · rw [hfs] at h
        cases h
        rcases ih hfs with ⟨hmap, hall⟩
        constructor
        · rw [List.map_cons, hmap]
        · intro p hp
          rcases List.mem_cons.mp hp with rfl | hmem
          · exact ⟨d, hdu, rfl⟩
          · exact hall p hmem

/-- C7 amended: at every search step the selected variable has the
smallest current domain size among unassigned variables; ties are broken
by the greatest number of *unassigned* neighbors in the AC-3 variant, and
by the greatest precomputed *total* neighbor count in the forward-checking
variant (the original claim's "most neighbors" holds only for the
latter). -/
theorem c7_amended_mrv_tiebreak :
    (∀ (cw : CW) (doms : CrosswordVariable → List Word) (a : Assignment),
      unassignedF cw a ≠ [] →
      selectUnassignedVariable cw doms a ∈ unassignedF cw a ∧
      (∀ u ∈ unassignedF cw a,
        (doms (selectUnassignedVariable cw doms a)).length ≤ (doms u).length) ∧
      (∀ u ∈ unassignedF cw a,
        (doms u).length = (doms (selectUnassignedVariable cw doms a)).length →
        degreeF cw a u ≤ degreeF cw a (selectUnassignedVariable cw doms a))) ∧
    (∀ (cw : CW) (s : FCStore) (a : Assignment) (v : CrosswordVariable),
      fcSelect cw s a = Except.ok v →
      v ∈ unassignedF cw a ∧
      (∀ u ∈ unassignedF cw a, ∀ du dv,
        domainOf s u = some du → domainOf s v = some dv →
        dv.length ≤ du.length ∧
        (du.length = dv.length → fcDegrees cw u ≤ fcDegrees cw v))) := by
  constructor
  · intro cw doms a hne
    have htot : ∀ x y, leSel cw doms a x y = true ∨ leSel cw doms a y x = true :=
      fun x y => lexLe_total (fun v => (doms v).length) (degreeF cw a) x y
    have htrans : ∀ x y z, leSel cw doms a x y = true →
        leSel cw doms a y z = true → leSel cw doms a x z = true :=
      fun x y z => lexLe_trans (fun v => (doms v).length) (degreeF cw a) x y z
    refine ⟨select_mem hne, ?_, ?_⟩
    · intro u hu
      have hle := headI_le_mem (leSel cw doms a) htot htrans
        (unassignedF cw a) u ((mem_sortBy _ _ _).mpr hu)
      have h := of_decide_eq_true hle
      rw [selectUnassignedVariable]
      omega
    · intro u hu hsize
      have hle := headI_le_mem (leSel cw doms a) htot htrans
        (unassignedF cw a) u ((mem_sortBy _ _ _).mpr hu)
      have h := of_decide_eq_true hle
      rw [selectUnassignedVariable] at hsize ⊢
      omega
  · intro cw s a v h
    rw [fcSelect] at h
    rcases hfs : fetchSizes s (unassignedF cw a) with e | sized
    · rw [hfs] at h
      cases h
    · rw [hfs] at h
      have h3 : (match sortBy (leSelFC cw) sized with
          | [] => Except.error ()
          | p :: _ => Except.ok p.1) = Except.ok v := h
      clear h
      rcases hsort : sortBy (leSelFC cw) sized with _ | ⟨p, t⟩
      · rw [hsort] at h3
        cases h3
      · rw [hsort] at h3
        cases h3
        rcases fetchSizes_ok hfs with ⟨hmap, hall⟩
        have hpmem : p ∈ sized := by
          apply (mem_sortBy (leSelFC cw) p sized).mp
          rw [hsort]
          exact List.mem_cons_self p t
        have htot : ∀ x y, leSelFC cw x y = true ∨ leSelFC cw y x = true :=
          fun x y =>
            lexLe_total (fun q : CrosswordVariable × Nat => q.2)
              (fun q => fcDegrees cw q.1) x y
        have htrans : ∀ x y z, leSelFC cw x y = true → leSelFC cw y z = true →
            leSelFC cw x z = true :=
          fun x y z =>
            lexLe_trans (fun q : CrosswordVariable × Nat => q.2)
              (fun q => fcDegrees cw q.1) x y z
        constructor
        · rw [← hmap]
          exact List.mem_map_of_mem _ hpmem
        · intro u hu du dv hdu hdv
          rw [← hmap] at hu
          rcases List.mem_map.mp hu with ⟨q, hq, hq1⟩
          have hle := headI_le_mem (leSelFC cw) htot htrans sized q
            ((mem_sortBy _ _ _).mpr hq)
          rw [hsort] at hle
          have hle2 : leSelFC cw p q = true := hle
          have h2 := of_decide_eq_true hle2
          rcases hall q hq with ⟨d, hd, hq2⟩
          rw [hq1, hdu] at hd
          cases hd
          rcases hall p hpmem with ⟨d2, hd2, hp2⟩
          rw [hdv] at hd2
          cases hd2
          constructor
          · omega
          · intro htie
            rcases h2 with hlt | ⟨heq, hdeg⟩
            · omega
            · rw [hq1] at hdeg
              exact hdeg

/-- Witness for the amended C7, instantiated at the reachable second search
step of the `cwC7` puzzle (AC-3 variant) and at the first selection of the
`cwC1` puzzle (forward-checking variant). -/
theorem c7_amended_witness :
    selectUnassignedVariable cwC7 domsC7 [(vC7, ['A', 'A'])] ∈
      unassignedF cwC7 [(vC7, ['A', 'A'])] ∧
    (domsC7 (selectUnassignedVariable cwC7 domsC7 [(vC7, ['A', 'A'])])).length ≤
      (domsC7 xC7).length ∧
    fcSelect cwC1 storeC1 [] = Except.ok xC1 ∧
    xC1 ∈ unassignedF cwC1 [] :=
  ⟨(c7_amended_mrv_tiebreak.1 cwC7 domsC7 [(vC7, ['A', 'A'])] (by decide)).1,
   (c7_amended_mrv_tiebreak.1 cwC7 domsC7 [(vC7, ['A', 'A'])] (by decide)).2.1
     xC7 (by decide),
   rfl,
   (c7_amended_mrv_tiebreak.2 cwC1 storeC1 [] xC1 rfl).1⟩

/-! ## Claim C8 — variables registered exactly at maximal runs of length ≥ 2 -/

theorem mem_ite_list {c : Prop} [Decidable c] {x : α} {l : List α} :
    (x ∈ if c then l else []) ↔ c ∧ x ∈ l := by
  split
  · simp [*]
  · simp [*]

theorem runCount_succ (f : Nat → Bool) (r i : Nat) (hf : f i = true) :
    runCount f (r + 1) i = runCount f r (i + 1) + 1 := by
  rw [runCount, if_pos hf]

theorem runCount_le (f : Nat → Bool) : ∀ (r i : Nat), runCount f r i ≤ r := by
  intro r
  induction r with
  | zero =>
    intro i
    rw [runCount]
  | succ r ih =>
    intro i
    rw [runCount]
    split
    · exact Nat.succ_le_succ (ih (i + 1))
    · exact Nat.zero_le _

theorem runCount_fill (f : Nat → Bool) :
    ∀ (r i k : Nat), k < runCount f r i → f (i + k) = true := by
  intro r
  induction r with
  | zero =>
    intro i k h
    rw [runCount] at h
    omega
  | succ r ih =>
    intro i k h
    by_cases hf : f i = true
    · rw [runCount_succ f r i hf] at h
      cases k with
      | zero => simpa using hf
      | succ k =>
        have hk := ih (i + 1) k (by omega)
        have heq : i + (k + 1) = (i + 1) + k := by omega
        rw [heq]
        exact hk
    · rw [runCount, if_neg hf] at h
      omega

theorem runCount_stop (f : Nat → Bool) :
    ∀ (r i : Nat), runCount f r i = r ∨ f (i + runCount f r i) = false := by
  intro r
  induction r with
  | zero =>
    intro i
    exact Or.inl rfl
  | succ r ih =>
    intro i
    by_cases hf : f i = true
    · rw [runCount_succ f r i hf]
      rcases ih (i + 1) with h | h
      · exact Or.inl (by omega)
      · right
        have heq : i + (runCount f r (i + 1) + 1) = (i + 1) + runCount f r (i + 1) := by
          omega
        rw [heq]
        exact h
    · right
      rw [runCount, if_neg hf]
      simp at hf
      simpa using hf

theorem runDown_eq (g : Grid) (i j : Nat) (hi : i < g.height)
    (hf : g.fill i j = true) :
    runDown g i j = 1 + runCount (fun k => g.fill k j) (g.height - (i + 1)) (i + 1) := by
  rw [runDown]
  have hr : g.height - i = (g.height - (i + 1)) + 1 := by omega
  rw [hr, runCount_succ (fun k => g.fill k j) (g.height - (i + 1)) i hf]
  omega

theorem runRight_eq (g : Grid) (i j : Nat) (hj : j < g.width)
    (hf : g.fill i j = true) :
    runRight g i j = 1 + runCount (fun k => g.fill i k) (g.width - (j + 1)) (j + 1) := by
  rw [runRight]
  have hr : g.width - j = (g.width - (j + 1)) + 1 := by omega
  rw [hr, runCount_succ (fun k => g.fill i k) (g.width - (j + 1)) j hf]
  omega

theorem mem_findVariables (g : Grid) (v : CrosswordVariable) :
    v ∈ findVariables g ↔
      ∃ i2, i2 < g.height ∧ ∃ j2, j2 < g.width ∧
        ((g.fill i2 j2 = true ∧ (i2 = 0 ∨ ¬ g.fill (i2 - 1) j2 = true) ∧
          1 < 1 + runCount (fun k => g.fill k j2) (g.height - (i2 + 1)) (i2 + 1) ∧
          v = ⟨i2, j2, Dir.down,
            1 + runCount (fun k => g.fill k j2) (g.height - (i2 + 1)) (i2 + 1)⟩) ∨
         (g.fill i2 j2 = true ∧ (j2 = 0 ∨ ¬ g.fill i2 (j2 - 1) = true) ∧
          1 < 1 + runCount (fun k => g.fill i2 k) (g.width - (j2 + 1)) (j2 + 1) ∧
          v = ⟨i2, j2, Dir.across,
            1 + runCount (fun k => g.fill i2 k) (g.width - (j2 + 1)) (j2 + 1)⟩)) := by
  rw [findVariables]
  simp only [List.mem_flatMap, List.mem_range, List.mem_append, mem_ite_list,
    List.mem_singleton]
  constructor
  · rintro ⟨i2, hi2, j2, hj2, hmem⟩
    refine ⟨i2, hi2, j2, hj2, ?_⟩
    rcases hmem with ⟨⟨hf, hs⟩, h1, hv⟩ | ⟨⟨hf, hs⟩, h1, hv⟩
    · exact Or.inl ⟨hf, hs, h1, hv⟩
    · exact Or.inr ⟨hf, hs, h1, hv⟩
  · rintro ⟨i2, hi2, j2, hj2, hmem⟩
    refine ⟨i2, hi2, j2, hj2, ?_⟩
    rcases hmem with ⟨hf, hs, h1, hv⟩ | ⟨hf, hs, h1, hv⟩
    · exact Or.inl ⟨⟨hf, hs⟩, h1, hv⟩
    · exact Or.inr ⟨⟨hf, hs⟩, h1, hv⟩

/-- C8: the grid model registers a DOWN variable exactly at each fillable
cell whose upper neighbor is out of grid or blocked, with length the
maximal downward run from that cell, and only when that run is at least 2
(runs of length 1 yield nothing); symmetrically for ACROSS variables with
the left neighbor and rightward runs.  The final four conjuncts state the
maximality of `runDown`/`runRight`: every cell inside the run is in-grid
and fillable and the cell just past the run is out of grid or blocked. -/
theorem c8_variables_at_maximal_runs (g : Grid) (i j l : Nat) :
    ((⟨i, j, Dir.down, l⟩ : CrosswordVariable) ∈ findVariables g ↔
      (i < g.height ∧ j < g.width ∧ g.fill i j = true ∧
       (i = 0 ∨ g.fill (i - 1) j = false) ∧ l = runDown g i j ∧ 2 ≤ l)) ∧
    ((⟨i, j, Dir.across, l⟩ : CrosswordVariable) ∈ findVariables g ↔
      (i < g.height ∧ j < g.width ∧ g.fill i j = true ∧
       (j = 0 ∨ g.fill i (j - 1) = false) ∧ l = runRight g i j ∧ 2 ≤ l)) ∧
    (∀ k, k < runDown g i j → i + k < g.height ∧ g.fill (i + k) j = true) ∧
    (g.height ≤ i + runDown g i j ∨ g.fill (i + runDown g i j) j = false) ∧
    (∀ k, k < runRight g i j → j + k < g.width ∧ g.fill i (j + k) = true) ∧
    (g.width ≤ j + runRight g i j ∨ g.fill i (j + runRight g i j) = false) := by
  refine ⟨?_, ?_, ?_, ?_, ?_, ?_⟩
  · rw [mem_findVariables]
    constructor
    · rintro ⟨i2, hi2, j2, hj2, hmem⟩
      rcases hmem with ⟨hf, hs, h1, hv⟩ | ⟨hf, hs, h1, hv⟩
      · rw [CrosswordVariable.mk.injEq] at hv
        rcases hv with ⟨rfl, rfl, -, rfl⟩
        refine ⟨hi2, hj2, hf, ?_, ?_, by omega⟩
        · rcases hs with h | h
          · exact Or.inl h
          · exact Or.inr (by simpa using h)
        · rw [runDown_eq g i j hi2 hf]
      · rw [CrosswordVariable.mk.injEq] at hv
        rcases hv with ⟨-, -, hdir, -⟩
        cases hdir
    · rintro ⟨hi, hj, hf, hs, hl, h2⟩
      refine ⟨i, hi, j, hj, Or.inl ⟨hf, ?_, ?_, ?_⟩⟩
      · rcases hs with h | h
        · exact Or.inl h
        · exact Or.inr (by simp [h])
      · rw [← runDown_eq g i j hi hf]
        omega
      · rw [CrosswordVariable.mk.injEq]
        exact ⟨rfl, rfl, rfl, by rw [hl, runDown_eq g i j hi hf]⟩
  · rw [mem_findVariables]
    constructor
    · rintro ⟨i2, hi2, j2, hj2, hmem⟩
      rcases hmem with ⟨hf, hs, h1, hv⟩ | ⟨hf, hs, h1, hv⟩
      · rw [CrosswordVariable.mk.injEq] at hv
        rcases hv with ⟨-, -, hdir, -⟩
        cases hdir
      · rw [CrosswordVariable.mk.injEq] at hv
        rcases hv with ⟨rfl, rfl, -, rfl⟩
        refine ⟨hi2, hj2, hf, ?_, ?_, by omega⟩
        · rcases hs with h | h
          · exact Or.inl h
          · exact Or.inr (by simpa using h)
        · rw [runRight_eq g i j hj2 hf]
    · rintro ⟨hi, hj, hf, hs, hl, h2⟩
      refine ⟨i, hi, j, hj, Or.inr ⟨hf, ?_, ?_, ?_⟩⟩
      · rcases hs with h | h
        · exact Or.inl h
        · exact Or.inr (by simp [h])
      · rw [← runRight_eq g i j hj hf]
        omega
      · rw [CrosswordVariable.mk.injEq]
        exact ⟨rfl, rfl, rfl, by rw [hl, runRight_eq g i j hj hf]⟩
  · intro k hk
    rw [runDown] at hk
    have hle := runCount_le (fun k => g.fill k j) (g.height - i) i
    exact ⟨by omega, runCount_fill _ _ _ _ hk⟩
  · rw [runDown]
    rcases runCount_stop (fun k => g.fill k j) (g.height - i) i with h | h
    · left
      omega
    · exact Or.inr h
  · intro k hk
    rw [runRight] at hk
    have hle := runCount_le (fun k => g.fill i k) (g.width - j) j
    exact ⟨by omega, runCount_fill _ _ _ _ hk⟩
  · rw [runRight]
    rcases runCount_stop (fun k => g.fill i k) (g.width - j) j with h | h
    · left
      omega
    · exact Or.inr h

/-- Witness for C8 at the concrete grid `gridC8`: the length-3 DOWN run at
the origin. -/
theorem c8_witness :
    ((⟨0, 0, Dir.down, 3⟩ : CrosswordVariable) ∈ findVariables gridC8 ↔
      (0 < gridC8.height ∧ 0 < gridC8.width ∧ gridC8.fill 0 0 = true ∧
       ((0 : Nat) = 0 ∨ gridC8.fill (0 - 1) 0 = false) ∧ 3 = runDown gridC8 0 0 ∧
       2 ≤ 3)) ∧
    (0 : Nat) = 0 ∧ (⟨0, 0, Dir.down, 3⟩ : CrosswordVariable) ∈ findVariables gridC8 :=
  ⟨(c8_variables_at_maximal_runs gridC8 0 0 3).1, rfl, by decide⟩

/-! ## Claim C3 — solve returns a complete, constraint-satisfying assignment or null -/

theorem InvA_nil (cw : CW) : InvA cw [] := by
  refine ⟨List.nodup_nil, ?_, ?_, ?_, ?_⟩ <;> simp

theorem InvA_extend {cw : CW} {a : Assignment} {v : CrosswordVariable} {w : Word}
    (hsym : OverlapSym cw) (hlen0 : ∀ u ∈ cw.vars, 0 < u.length)
    (hinv : InvA cw a) (hv : v ∈ cw.vars) (hun : alookup a v = none)
    (hcons : consistentB cw v ((v, w) :: a) = true) :
    InvA cw ((v, w) :: a) := by
  rcases hinv with ⟨hnd, hvars, hlens, huniq, hover⟩
  have hlook : alookup ((v, w) :: a) v = some w := by rw [alookup, if_pos rfl]
  have hne : ∀ p ∈ (v, w) :: a, p.1 ≠ v → (p.2 : Word) ≠ ([] : Word) := by
    intro p hp hpv
    rcases List.mem_cons.mp hp with rfl | hmem
    · exact absurd rfl hpv
    · have h1 := hlens p hmem
      have h2 := hlen0 p.1 (hvars p hmem)
      intro h0
      rw [h0] at h1
      simp only [List.length_nil] at h1
      omega
  rcases consistent_spec hlook hne hcons with ⟨hlen, huniq2, hnb⟩
  have hnotmem : ∀ w2, (v, w2) ∉ a := alookup_none_iff.mp hun
  refine ⟨?_, ?_, ?_, ?_, ?_⟩
  · rw [List.map_cons]
    refine List.nodup_cons.mpr ⟨?_, hnd⟩
    intro hmem
    rcases List.mem_map.mp hmem with ⟨p, hp, hp1⟩
    have hp1v : p.1 = v := hp1
    exact hnotmem p.2 ((show (v, p.2) = p by rw [← hp1v]) ▸ hp)
  · intro p hp
    rcases List.mem_cons.mp hp with rfl | hmem
    · exact hv
    · exact hvars p hmem
  · intro p hp
    rcases List.mem_cons.mp hp with rfl | hmem
    · exact hlen
    · exact hlens p hmem
  · intro p hp q hq hpq
    rcases List.mem_cons.mp hp with rfl | hp2
    · rcases List.mem_cons.mp hq with rfl | hq2
      · exact absurd rfl hpq
      · have hq1v : q.1 ≠ v := fun h => hpq h.symm
        have := huniq2 q (List.mem_cons_of_mem _ hq2) hq1v
        exact fun h0 => this (h0.symm)
    · rcases List.mem_cons.mp hq with rfl | hq2
      · have hp1v : p.1 ≠ v := hpq
        exact huniq2 p (List.mem_cons_of_mem _ hp2) hp1v
      · exact huniq p hp2 q hq2 hpq
  · intro p hp q hq hpq i j hov
    rcases List.mem_cons.mp hp with rfl | hp2
    · rcases List.mem_cons.mp hq with rfl | hq2
      · exact absurd rfl hpq
      · have hq1v : q.1 ≠ v := fun h => hpq h.symm
        have hqvars : q.1 ∈ cw.vars := hvars q hq2
        have hqnb : q.1 ∈ neighbors cw v := by
          rw [neighbors, List.mem_filter]
          refine ⟨hqvars, ?_⟩
          rw [hov]
          simp [hq1v]
        have hlq : alookup ((v, w) :: a) q.1 = some q.2 := by
          rw [alookup, if_neg (fun h => hq1v h.symm)]
          exact mem_alookup hnd hq2
        exact hnb q.1 hqnb q.2 hlq i j hov
    · rcases List.mem_cons.mp hq with rfl | hq2
      · have hp1v : p.1 ≠ v := hpq
        have hpvars : p.1 ∈ cw.vars := hvars p hp2
        have hsymm := hsym v hv p.1 hpvars
        have hov2 : cw.overlaps p.1 v = some (i, j) := hov
        rw [hov2] at hsymm
        have hvu : cw.overlaps v p.1 = some (j, i) := by
          rcases hx : cw.overlaps v p.1 with _ | ⟨x, y⟩
          · rw [hx] at hsymm
            exact Option.noConfusion hsymm
          · rw [hx] at hsymm
            have h5 : (some (i, j) : Option (Nat × Nat)) = some (y, x) := hsymm
            have h6 := Option.some.inj h5
            rw [Prod.mk.injEq] at h6
            rcases h6 with ⟨rfl, rfl⟩
            rfl
        have hpnb : p.1 ∈ neighbors cw v := by
          rw [neighbors, List.mem_filter]
          refine ⟨hpvars, ?_⟩
          rw [hvu]
          simp [hp1v]
        have hlp : alookup ((v, w) :: a) p.1 = some p.2 := by
          rw [alookup, if_neg (fun h => hp1v h.symm)]
          exact mem_alookup hnd hp2
        exact (hnb p.1 hpnb p.2 hlp j i hvu).symm
      · exact hover p hp2 q hq2 hpq i j hov

theorem complete_all {cw : CW} {a : Assignment} (_hndv : cw.vars.Nodup)
    (hnd : (a.map Prod.fst).Nodup) (hsub : ∀ p ∈ a, p.1 ∈ cw.vars)
    (hcomp : assignmentComplete cw a = true) : CompleteA cw a := by
  intro v hv
  rcases hlook : alookup a v with _ | w
  · exfalso
    have hnv : v ∉ a.map Prod.fst := by
      intro hmem
      rcases List.mem_map.mp hmem with ⟨p, hp, hp1⟩
      exact (alookup_none_iff.mp hlook) p.2 ((show (v, p.2) = p by rw [← hp1]) ▸ hp)
    have hkeys : a.map Prod.fst ⊆ cw.vars.erase v := by
      intro u hu
      have huv : u ≠ v := fun h => hnv (h ▸ hu)
      have huvars : u ∈ cw.vars := by
        rcases List.mem_map.mp hu with ⟨p, hp, hp1⟩
        exact hp1 ▸ hsub p hp
      exact (List.mem_erase_of_ne huv).mpr huvars
    have h1 := (List.subperm_of_subset hnd hkeys).length_le
    rw [List.length_map, List.length_erase_of_mem hv] at h1
    rw [assignmentComplete] at hcomp
    have h2 : a.length = cw.vars.length := beq_iff_eq.mp hcomp
    have h3 : 0 < cw.vars.length := List.length_pos_of_mem hv
    omega
  · exact ⟨w, rfl⟩

theorem unassigned_nonempty {cw : CW} {a : Assignment} (hndv : cw.vars.Nodup)
    (hnd : (a.map Prod.fst).Nodup) (hsub : ∀ p ∈ a, p.1 ∈ cw.vars)
    (hcomp : assignmentComplete cw a = false) : unassignedF cw a ≠ [] := by
  intro hempty
  have hall := List.filter_eq_nil_iff.mp hempty
  have hvk : cw.vars ⊆ a.map Prod.fst := by
    intro v hv
    have hne2 := hall v hv
    rcases hlook : alookup a v with _ | w
    · rw [hlook] at hne2
      simp at hne2
    · exact List.mem_map.mpr ⟨(v, w), alookup_mem hlook, rfl⟩
  have hkv : a.map Prod.fst ⊆ cw.vars := by
    intro u hu
    rcases List.mem_map.mp hu with ⟨p, hp, hp1⟩
    exact hp1 ▸ hsub p hp
  have h1 := (List.subperm_of_subset hndv hvk).length_le
  have h2 := (List.subperm_of_subset hnd hkv).length_le
  rw [List.length_map] at h1 h2
  rw [assignmentComplete] at hcomp
  have h3 : a.length ≠ cw.vars.length := by
    intro he
    rw [he] at hcomp
    simp at hcomp
  omega

theorem select_props {cw : CW} (doms : CrosswordVariable → List Word)
    {a : Assignment} (hndv : cw.vars.Nodup)
    (hnd : (a.map Prod.fst).Nodup) (hsub : ∀ p ∈ a, p.1 ∈ cw.vars)
    (hcomp : assignmentComplete cw a = false) :
    selectUnassignedVariable cw doms a ∈ cw.vars ∧
    alookup a (selectUnassignedVariable cw doms a) = none := by
  have hne := unassigned_nonempty hndv hnd hsub hcomp
  have hmem := @select_mem cw doms a hne
  rw [unassignedF, List.mem_filter] at hmem
  exact ⟨hmem.1, Option.isNone_iff_eq_none.mp hmem.2⟩

theorem tryValues_sound {cw : CW} (hsym : OverlapSym cw)
    (hlen0 : ∀ u ∈ cw.vars, 0 < u.length)
    (bt : Assignment → List Step → Option Assignment × List Step)
    (hbt : ∀ a2 st r st2, InvA cw a2 → bt a2 st = (some r, st2) →
      InvA cw r ∧ assignmentComplete cw r = true)
    (v : CrosswordVariable) (hv : v ∈ cw.vars) :
    ∀ (vals : List Word) (a : Assignment) (st : List Step) (r : Assignment)
      (st2 : List Step), InvA cw a → alookup a v = none →
      tryValues cw bt v vals a st = (some r, st2) →
      InvA cw r ∧ assignmentComplete cw r = true := by
  intro vals
  induction vals with
  | nil =>
    intro a st r st2 _ _ h
    rw [tryValues] at h
    cases h
  | cons w rest ih =>
    intro a st r st2 hinv hun h
    rw [tryValues] at h
    by_cases hcons : consistentB cw v ((v, w) :: a) = true
    · rw [if_pos hcons] at h
      rcases hbtr : bt ((v, w) :: a) (st ++ [Step.trying v w, Step.assigned v w])
        with ⟨or, st3⟩
      rw [hbtr] at h
      cases or with
      | some r2 =>
        have h2 : ((some r2 : Option Assignment), st3) =
            ((some r : Option Assignment), st2) := h
        rw [Prod.mk.injEq, Option.some.injEq] at h2
        rcases h2 with ⟨rfl, rfl⟩
        exact hbt _ _ _ _ (InvA_extend hsym hlen0 hinv hv hun hcons) hbtr
      | none =>
        have h2 : tryValues cw bt v rest a (st3 ++ [Step.backtracking v w]) =
            (some r, st2) := h
        exact ih a _ r st2 hinv hun h2
    · rw [if_neg hcons] at h
      exact ih a _ r st2 hinv hun h

theorem backtrack_sound {cw : CW} (hndv : cw.vars.Nodup) (hsym : OverlapSym cw)
    (hlen0 : ∀ u ∈ cw.vars, 0 < u.length) (doms : CrosswordVariable → List Word) :
    ∀ (fuel : Nat) (a : Assignment) (st : List Step) (r : Assignment)
      (st2 : List Step), InvA cw a →
      backtrack cw doms fuel a st = (some r, st2) →
      InvA cw r ∧ assignmentComplete cw r = true := by
  intro fuel
  induction fuel with
  | zero =>
    intro a st r st2 _ h
    rw [backtrack] at h
    cases h
  | succ fuel ih =>
    intro a st r st2 hinv h
    rw [backtrack] at h
    by_cases hcomp : assignmentComplete cw a = true
    · rw [if_pos hcomp] at h
      rw [Prod.mk.injEq, Option.some.injEq] at h
      rcases h with ⟨rfl, rfl⟩
      exact ⟨hinv, hcomp⟩
    · rw [if_neg hcomp] at h
      have hcompf : assignmentComplete cw a = false :=
        (Bool.not_eq_true _).mp hcomp
      rcases select_props doms hndv hinv.1 hinv.2.1 hcompf with ⟨hvv, hvn⟩
      exact tryValues_sound hsym hlen0 (backtrack cw doms fuel)
        (fun a2 st4 r2 st5 => ih a2 st4 r2 st5) _ hvv _ a st r st2 hinv hvn h

/-- C3: whenever the AC-3 variant's `solve` returns an assignment (rather
than the null no-solution signal, the only other possible outcome of its
return type), that assignment binds every registered variable to a word of
the variable's length, uses no word twice across distinct variables, and
agrees letterwise at every recorded overlap.  Hypotheses: the registered
variables are distinct, lengths are positive, and the overlap relation is
the symmetric one `computeOverlaps` builds on a well-formed grid — all
guaranteed by the grid model.  The embedding is total (missing-key
dereferences cannot occur since the constructor populates a domain for
every variable), so an unsatisfiable puzzle yields `none`, never a fault. -/
theorem c3_solve_sound (cw : CW) (doms : CrosswordVariable → List Word)
    (hndv : cw.vars.Nodup) (hsym : OverlapSym cw)
    (hlen0 : ∀ u ∈ cw.vars, 0 < u.length) (r : Assignment)
    (h : (solve cw doms).1 = some r) :
    CompleteA cw r ∧ SatAssign cw r := by
  rw [solve] at h
  rcases hac : ac3 cw doms with _ | d2
  · rw [hac] at h
    cases h
  · rw [hac] at h
    have h2 : (backtrack cw d2 (cw.vars.length + 1) [] []).1 = some r := h
    rcases hbt : backtrack cw d2 (cw.vars.length + 1) [] [] with ⟨or, st⟩
    rw [hbt] at h2
    have h3 : or = some r := h2
    rcases backtrack_sound hndv hsym hlen0 d2 (cw.vars.length + 1) [] [] r st
        (InvA_nil cw) (by rw [hbt, h3]) with ⟨hinv, hcomp⟩
    exact ⟨complete_all hndv hinv.1 hinv.2.1 hcomp,
      hinv.2.2.1, hinv.2.2.2.1, hinv.2.2.2.2⟩

/-- Witness for C3: the single-slot puzzle `cwC3` with dictionary
CAT, DOG; `solve` returns CAT and the theorem yields completeness and
constraint satisfaction. -/
theorem c3_witness :
    (solve cwC3 domsC3).1 = some [(xC3, ['C', 'A', 'T'])] ∧
    CompleteA cwC3 [(xC3, ['C', 'A', 'T'])] ∧
    SatAssign cwC3 [(xC3, ['C', 'A', 'T'])] :=
  ⟨rfl,
   (c3_solve_sound cwC3 domsC3 (by decide) (by unfold OverlapSym; decide)
     (by decide) [(xC3, ['C', 'A', 'T'])] rfl).1,
   (c3_solve_sound cwC3 domsC3 (by decide) (by unfold OverlapSym; decide)
     (by decide) [(xC3, ['C', 'A', 'T'])] rfl).2⟩
